import Mathlib

set_option maxRecDepth 65536

/-!
# Verification of the credential vault core (SecurityManager / WalletManager)

A shallow embedding of the encryption, wallet-registry and rate-limiting
logic of the repository, together with theorems settling the frozen claims.

The cipher (src/src/services/SecurityManager.ts, methods encrypt/decrypt)
is embedded with the node:crypto AES-256-GCM primitive replaced by an
executable model: a keystream XOR for the CTR part and a deterministic
16-byte digest for the authentication tag.  The blob format, the colon
splitting, the truthiness guards, the greedy hex decoding of node's
Buffer.from(.., 'hex') and the collapse of every error into the single
generic "Failed to decrypt data" error follow the source exactly.
-/

/-- One mixing step of the modelled primitives, over a prime modulus. -/
def mix (a b : Nat) : Nat := (a * 131 + b + 1) % 65521

/-- Byte view of a string used as key material by the modelled scrypt. -/
def strBytes (s : String) : List Nat := s.data.map (fun c => c.toNat % 256)

/-- Modelled from the spec: the scrypt-class key derivation of
crypto.scryptSync(secret, 'salt', 32) (external node:crypto primitive,
not repository code).  A deterministic 32-byte key from the secret. -/
def scryptKey (secret : String) : List Nat :=
  (List.range 32).map (fun i => (strBytes secret).foldl mix i % 256)

/-- The constant additional authenticated data bound by the cipher. -/
def theAad : List Nat := strBytes "crossmint-discord-bot"

/-- Modelled from the spec: one keystream byte of the GCM-class (CTR)
encryption, a function of key, iv and position. -/
def ksByte (key iv : List Nat) (i : Nat) : Nat :=
  (key ++ iv).foldl mix i % 256

/-- XOR a byte list against the keystream of the same length. -/
def xorStream (key iv bs : List Nat) : List Nat :=
  List.zipWith (· ^^^ ·) bs ((List.range bs.length).map (ksByte key iv))

/-- Modelled from the spec: the GCM-class authentication tag over
key, iv, additional authenticated data and ciphertext; 16 bytes. -/
def ghash (key iv aad ct : List Nat) : List Nat :=
  (List.range 16).map
    (fun i => (key ++ iv ++ aad ++ ct ++ [ct.length]).foldl mix i % 256)

/-- Lower-case hex digit of a value below 16. -/
def hexDigit (n : Nat) : Char :=
  if n < 10 then Char.ofNat (48 + n) else Char.ofNat (87 + n)

/-- Hex value of a character, accepting 0-9, a-f and A-F as node does. -/
def hexVal (c : Char) : Option Nat :=
  if 48 ≤ c.toNat ∧ c.toNat ≤ 57 then some (c.toNat - 48)
  else if 97 ≤ c.toNat ∧ c.toNat ≤ 102 then some (c.toNat - 87)
  else if 65 ≤ c.toNat ∧ c.toNat ≤ 70 then some (c.toNat - 55)
  else none

/-- Hex encoding of a byte list, two digits per byte. -/
def hexChars : List Nat → List Char
  | [] => []
  | b :: bs => hexDigit (b / 16) :: hexDigit (b % 16) :: hexChars bs

/-- Greedy hex decoding of node's Buffer.from(s, 'hex'): decodes pairs of
hex digits and silently stops at the first invalid pair or odd tail. -/
def hexDecodeGreedy : List Char → List Nat
  | c1 :: c2 :: rest =>
    match hexVal c1, hexVal c2 with
    | some h, some l => (h * 16 + l) :: hexDecodeGreedy rest
    | _, _ => []
  | _ => []

/-- The three bytes encoding one character of the plaintext. -/
def charBytes (c : Char) : List Nat :=
  [c.toNat / 65536, c.toNat / 256 % 256, c.toNat % 256]

/-- Modelled from the spec: the byte encoding of a plaintext string
(the utf8-class encoding of the source), three bytes per character. -/
def encodeBytes : List Char → List Nat
  | [] => []
  | c :: cs => charBytes c ++ encodeBytes cs

/-- Decode bytes back into characters, three bytes per character;
invalid code points become the replacement character and a short
tail is dropped, mirroring lossy utf8 decoding. -/
def decodeBytes : List Nat → List Char
  | b0 :: b1 :: b2 :: rest =>
    (let n := b0 * 65536 + b1 * 256 + b2
     if n.isValidChar then Char.ofNat n else Char.ofNat 65533)
      :: decodeBytes rest
  | _ => []

/-- String from a byte list. -/
def bytesToString (bs : List Nat) : String := ⟨decodeBytes bs⟩

/-- JavaScript's String.split on a single separator character: splits at
every occurrence, keeping empty pieces. -/
def splitOnChar (sep : Char) : List Char → List (List Char)
  | [] => [[]]
  | c :: cs =>
    if c = sep then [] :: splitOnChar sep cs
    else
      match splitOnChar sep cs with
      | [] => [[c]]
      | h :: t => (c :: h) :: t

/-- SecurityManager.encrypt: derive the key, encrypt the text under the
modelled GCM primitive with the given iv (crypto.randomBytes(16) in the
source, passed explicitly here), and return the iv:tag:ciphertext blob. -/
def encrypt (secret : String) (iv : List Nat) (text : String) : String :=
  let key := scryptKey secret
  let ct := xorStream key iv (encodeBytes text.data)
  let tag := ghash key iv theAad ct
  ⟨hexChars iv ++ ':' :: hexChars tag ++ ':' :: hexChars ct⟩

/-- The two internal failure points of SecurityManager.decrypt: the
"Invalid encrypted data format" throw and the GCM authentication throw. -/
inductive CryptoErr where
  | malformed : CryptoErr
  | authFailed : CryptoErr
deriving DecidableEq, Repr

/-- The body of SecurityManager.decrypt before its catch block: split on
colons, destructure the first three components (extra components are
silently ignored, exactly as the JavaScript destructuring does), fail if
any of the three is missing or empty (falsy), hex-decode greedily,
verify the authentication tag, and only then release the plaintext. -/
def decryptCore (secret : String) (blob : String) : Except CryptoErr String :=
  let parts := splitOnChar ':' blob.data
  let ivHex := parts.getD 0 []
  let tagHex := parts.getD 1 []
  let ctHex := parts.getD 2 []
  if ivHex = [] ∨ tagHex = [] ∨ ctHex = [] then .error .malformed
  else
    let key := scryptKey secret
    let iv := hexDecodeGreedy ivHex
    let tag := hexDecodeGreedy tagHex
    let ct := hexDecodeGreedy ctHex
    if tag = ghash key iv theAad ct then .ok (bytesToString (xorStream key iv ct))
    else .error .authFailed

/-- SecurityManager.decrypt as the caller sees it: the catch block logs
and rethrows the single generic Error('Failed to decrypt data'), so every
internal failure collapses into one untyped error value. -/
def decrypt (secret : String) (blob : String) : Except Unit String :=
  (decryptCore secret blob).mapError (fun _ => ())

/-! ## Wallet data model (src/src/types/wallet.ts) -/

/-- The chain family of a wallet provider. -/
inductive ChainType where
  | evm : ChainType
  | solana : ChainType
  | cosmos : ChainType
  | fuel : ChainType
  | radix : ChainType
deriving DecidableEq, Repr

/-- WalletProvider from src/src/types/wallet.ts.  Optional fields are
Option; JavaScript truthiness of a string field is captured by optTruthy. -/
structure WalletProvider where
  type : ChainType
  privateKey : String
  rpcUrl : String
  crossmintApiKey : Option String := none
  address : Option String := none
  chainId : Option Nat := none
deriving DecidableEq, Repr

/-- UserWallet from src/src/types/wallet.ts; Date values become Nat
timestamps supplied by the caller. -/
structure UserWallet where
  userId : String
  walletProvider : WalletProvider
  isActive : Bool
  createdAt : Nat
  lastUsed : Nat
deriving DecidableEq, Repr

/-- JavaScript truthiness of an optional string: present and non-empty. -/
def optTruthy : Option String → Bool
  | some s => decide (s ≠ "")
  | none => false

/-- Lookup in an association-list model of a JavaScript Map. -/
def lookupKV {A : Type} : List (String × A) → String → Option A
  | [], _ => none
  | (k, v) :: rest, u => if k = u then some v else lookupKV rest u

/-- Replace every entry with the given key in place. -/
def replaceKV {A : Type} : List (String × A) → String → A → List (String × A)
  | [], _, _ => []
  | (k, w) :: rest, u, v =>
    if k = u then (u, v) :: replaceKV rest u v else (k, w) :: replaceKV rest u v

/-- Map.set: replace the value in place when the key is present
(JavaScript Maps keep insertion order), append otherwise. -/
def setKV {A : Type} (st : List (String × A)) (u : String) (v : A) :
    List (String × A) :=
  if (lookupKV st u).isSome then replaceKV st u v else st ++ [(u, v)]

/-! ## WalletManager (third segment of src/unnamed/part_001) -/

/-- The registry state: the wallets Map of WalletManager. -/
abbrev WMState : Type := List (String × UserWallet)

/-- A deterministic 40-hex-digit digest standing in for the derived
account address; its concrete value is opaque to every claim. -/
def addrDigest (pk : String) : String :=
  ⟨hexChars ((List.range 20).map (fun i => (strBytes pk).foldl mix i % 256))⟩

/-- Is the string a 0x-prefixed 64-hex-digit private key. -/
def isStrictEvmKey (pk : String) : Bool :=
  match pk.data with
  | '0' :: 'x' :: rest =>
    decide (rest.length = 64) && rest.all (fun c => (hexVal c).isSome)
  | _ => false

/-- Modelled from the spec: the standard EVM address derivation performed
by new ethers.Wallet(privateKey) (external ethers.js library, not
repository code).  It succeeds exactly on well-formed 0x-prefixed 32-byte
hex keys, throwing otherwise; the derived address value is opaque. -/
def ethersWalletAddress (pk : String) : Option String :=
  if isStrictEvmKey pk then some ("0x" ++ addrDigest pk) else none

/-- The address step of WalletManager.registerWallet: for evm providers
without a (truthy) address, derive it from the private key; an exception
from ethers.Wallet aborts the registration. -/
def deriveStep (wp : WalletProvider) : Except Unit (Option String) :=
  if wp.type = ChainType.evm && !(optTruthy wp.address) then
    match ethersWalletAddress wp.privateKey with
    | some a => .ok (some a)
    | none => .error ()
  else .ok wp.address

/-- The crossmintApiKey encryption step of registerWallet: the ternary
walletProvider.crossmintApiKey ? encrypt(..) : undefined, so a missing or
empty key stores undefined. -/
def encCkStep (enc : String → Except Unit String) (wp : WalletProvider) :
    Except Unit (Option String) :=
  match wp.crossmintApiKey with
  | some ck => if ck ≠ "" then (enc ck).map some else .ok none
  | none => .ok none

/-- The required phase of WalletManager.registerWallet: derive the
address, encrypt the private key, encrypt the crossmint key, and build
the complete provider that is stored.  Any failure aborts the phase. -/
def regRequired (enc : String → Except Unit String) (wp : WalletProvider) :
    Except Unit WalletProvider :=
  match deriveStep wp with
  | .error e => .error e
  | .ok addr =>
    match enc wp.privateKey with
    | .error e => .error e
    | .ok encPk =>
      match encCkStep enc wp with
      | .error e => .error e
      | .ok encCk =>
        .ok { wp with privateKey := encPk, crossmintApiKey := encCk, address := addr }

/-- WalletManager.registerWallet.  enc is the injected
SecurityManager.encrypt (fresh random ivs abstracted into the function);
goatOk tells whether the GoatService.initializeTools side effect would
succeed; now is the current timestamp.  The inner try/catch swallows a
tool-initialization failure, the outer one turns any required-phase
failure into a false result with no state change. -/
def registerWallet (enc : String → Except Unit String) (goatOk : Bool)
    (now : Nat) (st : WMState) (userId : String) (wp : WalletProvider) :
    Bool × WMState :=
  match regRequired enc wp with
  | .error _ => (false, st)
  | .ok complete =>
    let st' := setKV st userId
      { userId := userId, walletProvider := complete, isActive := true,
        createdAt := now, lastUsed := now }
    let _toolReport := goatOk
    (true, st')

/-- WalletManager.getWallet: absent or inactive records give null;
both secret fields are decrypted with the injected
SecurityManager.decrypt, lastUsed is refreshed, and the decrypted
provider is returned.  The catch block turns any decryption failure
into null with no state change. -/
def getWallet (dec : String → Except Unit String) (now : Nat)
    (st : WMState) (userId : String) : Option WalletProvider × WMState :=
  match lookupKV st userId with
  | none => (none, st)
  | some uw =>
    if !uw.isActive then (none, st)
    else
      match dec uw.walletProvider.privateKey with
      | .error _ => (none, st)
      | .ok dpk =>
        match
          (if optTruthy uw.walletProvider.crossmintApiKey then
            (dec (uw.walletProvider.crossmintApiKey.getD "")).map some
          else .ok none) with
        | .error _ => (none, st)
        | .ok dck =>
          (some { uw.walletProvider with privateKey := dpk, crossmintApiKey := dck },
           setKV st userId { uw with lastUsed := now })

/-- WalletManager.hasWallet: userWallet?.isActive ?? false. -/
def hasWallet (st : WMState) (userId : String) : Bool :=
  match lookupKV st userId with
  | some uw => uw.isActive
  | none => false

/-- WalletManager.removeWallet: if any record exists (active or not) it
is deactivated in place and true is returned; otherwise false. -/
def removeWallet (st : WMState) (userId : String) : Bool × WMState :=
  match lookupKV st userId with
  | some uw => (true, setKV st userId { uw with isActive := false })
  | none => (false, st)

/-- Partial<WalletProvider>: the update object of
WalletManager.updateWallet; none means the field is absent. -/
structure WalletUpdate where
  type : Option ChainType := none
  privateKey : Option String := none
  rpcUrl : Option String := none
  crossmintApiKey : Option String := none
  address : Option String := none
  chainId : Option Nat := none
deriving DecidableEq, Repr

/-- The conditional re-encryption of one secret field of an update:
if (updates.field) updates.field = encrypt(updates.field).  A present
but empty field is left as it is (falsy), yet still merged later. -/
def encUpdStep (enc : String → Except Unit String) :
    Option String → Except Unit (Option String)
  | some s => if s ≠ "" then (enc s).map some else .ok (some s)
  | none => .ok none

/-- WalletManager.updateWallet: fails on a missing or inactive record,
re-encrypts truthy secret fields, then object-spread-merges the update
into the stored provider (fields present in the update overwrite, absent
ones are kept).  A thrown encryption error gives false with no change. -/
def updateWallet (enc : String → Except Unit String) (st : WMState)
    (userId : String) (u : WalletUpdate) : Bool × WMState :=
  match lookupKV st userId with
  | none => (false, st)
  | some uw =>
    if !uw.isActive then (false, st)
    else
      match encUpdStep enc u.privateKey with
      | .error _ => (false, st)
      | .ok upk =>
        match encUpdStep enc u.crossmintApiKey with
        | .error _ => (false, st)
        | .ok uck =>
          let wp := uw.walletProvider
          let wp' : WalletProvider :=
            { type := u.type.getD wp.type,
              privateKey := upk.getD wp.privateKey,
              rpcUrl := u.rpcUrl.getD wp.rpcUrl,
              crossmintApiKey := match uck with
                | some v => some v
                | none => wp.crossmintApiKey,
              address := match u.address with
                | some v => some v
                | none => wp.address,
              chainId := match u.chainId with
                | some v => some v
                | none => wp.chainId }
          (true, setKV st userId { uw with walletProvider := wp' })

/-- WalletManager.getStats: totals over all records and active ones. -/
def getStats (st : WMState) : Nat × Nat :=
  (st.length, (st.filter (fun p => p.2.isActive)).length)

/-- Is the character a hexadecimal digit. -/
def isHexChar (c : Char) : Bool := (hexVal c).isSome

/-- JavaScript's s.replace('0x', ''): remove the first occurrence of the
substring 0x anywhere in the string, leaving the rest untouched. -/
def removeFirst0x : List Char → List Char
  | '0' :: 'x' :: rest => rest
  | c :: rest => c :: removeFirst0x rest
  | [] => []

/-- WalletManager.validateEvmWallet: the private key with the first 0x
occurrence removed must be exactly 64 hex characters. -/
def validateEvmWallet (p : WalletProvider) : Bool :=
  let l := removeFirst0x p.privateKey.data
  decide (l.length = 64) && l.all isHexChar

/-- WalletManager.validateSolanaWallet: a minimum-length heuristic. -/
def validateSolanaWallet (p : WalletProvider) : Bool :=
  decide (p.privateKey.length ≥ 32)

/-- WalletManager.validateWalletProvider: presence of type, privateKey
and rpcUrl (string truthiness), then the type-specific key check;
non-evm, non-solana types are rejected. -/
def validateWalletProvider (p : WalletProvider) : Bool :=
  if p.privateKey = "" || p.rpcUrl = "" then false
  else
    match p.type with
    | ChainType.evm => validateEvmWallet p
    | ChainType.solana => validateSolanaWallet p
    | _ => false

/-! ## Rate limiter (SecurityManager.checkRateLimit / cleanupRateLimits) -/

/-- One entry of the rateLimitMap. -/
structure RLEntry where
  count : Nat
  resetTime : Nat
deriving DecidableEq, Repr

/-- The rateLimitMap of SecurityManager. -/
abbrev RLState : Type := List (String × RLEntry)

/-- SecurityManager.checkRateLimit at an explicit time now: a missing or
expired counter is replaced by a fresh one admitting the call; a live
counter at or above the limit rejects without mutation; otherwise the
count is incremented in place and the call admitted. -/
def checkRateLimit (st : RLState) (now : Nat) (userId : String)
    (limit windowMs : Nat) : Bool × RLState :=
  match lookupKV st userId with
  | none => (true, setKV st userId { count := 1, resetTime := now + windowMs })
  | some e =>
    if now > e.resetTime then
      (true, setKV st userId { count := 1, resetTime := now + windowMs })
    else if e.count ≥ limit then (false, st)
    else (true, setKV st userId { count := e.count + 1, resetTime := e.resetTime })

/-- SecurityManager.cleanupRateLimits at time now: delete every entry
whose resetTime has passed. -/
def cleanupRateLimits (st : RLState) (now : Nat) : RLState :=
  st.filter (fun p => decide (now ≤ p.2.resetTime))

/-- The live (non-expired) counter view that determines the behaviour of
checkRateLimit: an entry past its resetTime counts as absent. -/
def liveLookup (st : RLState) (now : Nat) (userId : String) : Option RLEntry :=
  match lookupKV st userId with
  | some e => if now > e.resetTime then none else some e
  | none => none

/-- Well-formedness of a map model: no duplicate keys (JavaScript Maps
cannot hold two entries for one key). -/
def KeysNodup {A : Type} (st : List (String × A)) : Prop :=
  (st.map Prod.fst).Nodup

/-- Observational equivalence of two rate-limiter states from a time
bound onwards: the same live counters at every later time. -/
def EquivFrom (tc : Nat) (s1 s2 : RLState) : Prop :=
  ∀ t u, tc ≤ t → liveLookup s1 t u = liveLookup s2 t u

/-! ## Supporting lemmas: bytes, hex, split -/

theorem hexVal_hexDigit : ∀ n : Nat, n < 16 → hexVal (hexDigit n) = some n := by
  decide

theorem hexDigit_ne_colon : ∀ n : Nat, n < 16 → hexDigit n ≠ ':' := by
  decide

theorem xor_lt_256 {a b : Nat} (ha : a < 256) (hb : b < 256) : a ^^^ b < 256 := by
  have h : a ^^^ b < 2 ^ 8 := Nat.bitwise_lt (by simpa using ha) (by simpa using hb)
  simpa using h

theorem colon_not_mem_hexChars {bs : List Nat} (h : ∀ b ∈ bs, b < 256) :
    ':' ∉ hexChars bs := by
  induction bs with
  | nil => simp [hexChars]
  | cons b bs ih =>
    have hb : b < 256 := h b (by simp)
    have h1 : b / 16 < 16 := by omega
    have h2 : b % 16 < 16 := Nat.mod_lt _ (by omega)
    simp only [hexChars, List.mem_cons, not_or]
    exact ⟨fun hc => hexDigit_ne_colon _ h1 hc.symm,
      fun hc => hexDigit_ne_colon _ h2 hc.symm,
      ih (fun x hx => h x (by simp [hx]))⟩

theorem hexDecodeGreedy_hexChars {bs : List Nat} (h : ∀ b ∈ bs, b < 256) :
    hexDecodeGreedy (hexChars bs) = bs := by
  induction bs with
  | nil => rfl
  | cons b bs ih =>
    have hb : b < 256 := h b (by simp)
    have h1 : b / 16 < 16 := by omega
    have h2 : b % 16 < 16 := Nat.mod_lt _ (by omega)
    simp only [hexChars, hexDecodeGreedy, hexVal_hexDigit _ h1, hexVal_hexDigit _ h2]
    rw [ih (fun x hx => h x (by simp [hx]))]
    congr 1
    omega

theorem char_toNat_lt (c : Char) : c.toNat < 1114112 := by
  rcases c.valid with h | h
  · exact Nat.lt_trans h (by norm_num)
  · exact h.2

theorem encodeBytes_lt {l : List Char} : ∀ b ∈ encodeBytes l, b < 256 := by
  induction l with
  | nil => simp [encodeBytes]
  | cons c cs ih =>
    intro b hb
    simp only [encodeBytes, charBytes, List.mem_append, List.mem_cons] at hb
    rcases hb with (h | h | h | h) | h
    · have := char_toNat_lt c; omega
    · have := Nat.mod_lt (c.toNat / 256) (show 0 < 256 by omega); omega
    · have := Nat.mod_lt c.toNat (show 0 < 256 by omega); omega
    · simp at h
    · exact ih b h

theorem decodeBytes_encodeBytes (l : List Char) : decodeBytes (encodeBytes l) = l := by
  induction l with
  | nil => rfl
  | cons c cs ih =>
    have hn : c.toNat / 65536 * 65536 + c.toNat / 256 % 256 * 256 + c.toNat % 256
        = c.toNat := by omega
    have hv : c.toNat.isValidChar := c.valid
    simp only [encodeBytes, charBytes, List.cons_append, List.nil_append,
      List.append_eq, decodeBytes, hn]
    rw [ih, if_pos hv, Char.ofNat_toNat]

theorem splitOnChar_not_mem {sep : Char} {l : List Char} (h : sep ∉ l) :
    splitOnChar sep l = [l] := by
  induction l with
  | nil => rfl
  | cons c cs ih =>
    have hc : ¬ c = sep := fun hc => h (hc ▸ List.mem_cons_self c cs)
    have hcs : sep ∉ cs := fun hm => h (List.mem_cons_of_mem _ hm)
    simp only [splitOnChar, if_neg hc, ih hcs]

theorem splitOnChar_append {sep : Char} {a rest : List Char} (h : sep ∉ a) :
    splitOnChar sep (a ++ sep :: rest) = a :: splitOnChar sep rest := by
  induction a with
  | nil => simp [splitOnChar]
  | cons c cs ih =>
    have hc : ¬ c = sep := fun hc => h (hc ▸ List.mem_cons_self c cs)
    have hcs : sep ∉ cs := fun hm => h (List.mem_cons_of_mem _ hm)
    simp only [List.cons_append, splitOnChar, List.append_eq, ih hcs, if_neg hc]

theorem xorStream_length (key iv bs : List Nat) : (xorStream key iv bs).length = bs.length := by
  simp [xorStream]

theorem zipWith_xor_cancel : ∀ (bs ks : List Nat), bs.length = ks.length →
    List.zipWith (· ^^^ ·) (List.zipWith (· ^^^ ·) bs ks) ks = bs
  | [], _, _ => by simp
  | b :: bs, k :: ks, h => by
    simp only [List.zipWith_cons_cons, Nat.xor_cancel_right, List.cons.injEq, true_and]
    exact zipWith_xor_cancel bs ks (by simpa using h)
  | b :: bs, [], h => by simp at h

theorem xorStream_xorStream {key iv bs : List Nat} :
    xorStream key iv (xorStream key iv bs) = bs := by
  rw [xorStream, xorStream_length, xorStream]
  exact zipWith_xor_cancel bs _ (by simp)

theorem zipWith_xor_lt : ∀ (bs ks : List Nat), (∀ b ∈ bs, b < 256) →
    (∀ k ∈ ks, k < 256) → ∀ x ∈ List.zipWith (· ^^^ ·) bs ks, x < 256
  | [], _, _, _ => by simp
  | b :: bs, [], _, _ => by simp
  | b :: bs, k :: ks, hb, hk => by
    simp only [List.zipWith_cons_cons, List.mem_cons]
    rintro x (rfl | hx)
    · exact xor_lt_256 (hb b (by simp)) (hk k (by simp))
    · exact zipWith_xor_lt bs ks (fun y hy => hb y (by simp [hy]))
        (fun y hy => hk y (by simp [hy])) x hx

theorem xorStream_lt {key iv bs : List Nat} (h : ∀ b ∈ bs, b < 256) :
    ∀ b ∈ xorStream key iv bs, b < 256 := by
  refine zipWith_xor_lt _ _ h ?_
  intro k hk
  rcases List.mem_map.mp hk with ⟨i, _, rfl⟩
  exact Nat.mod_lt _ (by omega)

theorem ghash_lt {key iv aad ct : List Nat} : ∀ b ∈ ghash key iv aad ct, b < 256 := by
  intro b hb
  rcases List.mem_map.mp hb with ⟨i, _, rfl⟩
  exact Nat.mod_lt _ (by omega)

theorem ghash_length (key iv aad ct : List Nat) : (ghash key iv aad ct).length = 16 := by
  simp [ghash]

theorem hexChars_ne_nil {bs : List Nat} (h : bs ≠ []) : hexChars bs ≠ [] := by
  cases bs with
  | nil => exact absurd rfl h
  | cons b bs => simp [hexChars]

theorem data_ne_nil {p : String} (hp : p ≠ "") : p.data ≠ [] := by
  intro h
  apply hp
  cases p
  simp only [String.data] at h
  simp [h]

theorem encodeBytes_ne_nil {l : List Char} (h : l ≠ []) : encodeBytes l ≠ [] := by
  cases l with
  | nil => exact absurd rfl h
  | cons c cs => simp [encodeBytes, charBytes]

theorem xorStream_ne_nil {key iv bs : List Nat} (h : bs ≠ []) :
    xorStream key iv bs ≠ [] := by
  intro hx
  apply h
  have := xorStream_length key iv bs
  rw [hx] at this
  exact List.length_eq_zero.mp this.symm

/-- The decrypt side of the round trip, before the error collapse: a blob
produced by encrypt with a non-empty iv of bytes and a non-empty
plaintext parses into exactly its three components and decrypts back. -/
theorem decryptCore_encrypt (secret : String) (iv : List Nat) (p : String)
    (hiv : iv ≠ []) (hb : ∀ b ∈ iv, b < 256) (hp : p ≠ "") :
    decryptCore secret (encrypt secret iv p) = .ok p := by
  have hctlt : ∀ b ∈ xorStream (scryptKey secret) iv (encodeBytes p.data), b < 256 :=
    xorStream_lt encodeBytes_lt
  have htaglt : ∀ b ∈ ghash (scryptKey secret) iv theAad
      (xorStream (scryptKey secret) iv (encodeBytes p.data)), b < 256 := ghash_lt
  have hsplit : splitOnChar ':' (encrypt secret iv p).data
      = [hexChars iv,
         hexChars (ghash (scryptKey secret) iv theAad
           (xorStream (scryptKey secret) iv (encodeBytes p.data))),
         hexChars (xorStream (scryptKey secret) iv (encodeBytes p.data))] := by
    have hdata : (encrypt secret iv p).data
        = hexChars iv ++ ':' :: (hexChars (ghash (scryptKey secret) iv theAad
            (xorStream (scryptKey secret) iv (encodeBytes p.data)))
          ++ ':' :: hexChars (xorStream (scryptKey secret) iv (encodeBytes p.data))) := by
      show (hexChars iv ++ ':' :: hexChars (ghash (scryptKey secret) iv theAad
            (xorStream (scryptKey secret) iv (encodeBytes p.data))))
          ++ ':' :: hexChars (xorStream (scryptKey secret) iv (encodeBytes p.data)) = _
      rw [List.append_assoc, List.cons_append]
    rw [hdata, splitOnChar_append (colon_not_mem_hexChars hb),
        splitOnChar_append (colon_not_mem_hexChars htaglt),
        splitOnChar_not_mem (colon_not_mem_hexChars hctlt)]
  have h1 : hexChars iv ≠ [] := hexChars_ne_nil hiv
  have h2 : hexChars (ghash (scryptKey secret) iv theAad
      (xorStream (scryptKey secret) iv (encodeBytes p.data))) ≠ [] :=
    hexChars_ne_nil (by
      intro h
      have := ghash_length (scryptKey secret) iv theAad
        (xorStream (scryptKey secret) iv (encodeBytes p.data))
      rw [h] at this
      simp at this)
  have h3 : hexChars (xorStream (scryptKey secret) iv (encodeBytes p.data)) ≠ [] :=
    hexChars_ne_nil (xorStream_ne_nil (encodeBytes_ne_nil (data_ne_nil hp)))
  simp only [decryptCore, hsplit, List.getD, List.get?, Option.getD]
  rw [if_neg (by simp [h1, h2, h3])]
  rw [hexDecodeGreedy_hexChars hb, hexDecodeGreedy_hexChars htaglt,
      hexDecodeGreedy_hexChars hctlt]
  rw [if_pos rfl, xorStream_xorStream]
  show Except.ok (bytesToString (encodeBytes p.data)) = Except.ok p
  rw [bytesToString, decodeBytes_encodeBytes]

/-! ## Supporting lemmas: the association-list Map model -/

theorem lookupKV_eq_none_of_not_mem {A : Type} {st : List (String × A)} {u : String}
    (h : u ∉ st.map Prod.fst) : lookupKV st u = none := by
  induction st with
  | nil => rfl
  | cons p rest ih =>
    simp only [List.map_cons, List.mem_cons, not_or] at h
    cases p with
    | mk k v =>
      simp only [lookupKV, if_neg (fun hk : k = u => h.1 (hk ▸ rfl)), ih h.2]

theorem lookupKV_replaceKV_self {A : Type} {st : List (String × A)} {u : String} {v : A}
    (h : (lookupKV st u).isSome) : lookupKV (replaceKV st u v) u = some v := by
  induction st with
  | nil => simp [lookupKV] at h
  | cons p rest ih =>
    cases p with
    | mk k w =>
      by_cases hk : k = u
      · simp [replaceKV, hk, lookupKV]
      · rw [replaceKV, if_neg hk]
        rw [lookupKV, if_neg hk] at h ⊢
        exact ih h

theorem lookupKV_replaceKV_ne {A : Type} {st : List (String × A)} {u u' : String} {v : A}
    (h : u' ≠ u) : lookupKV (replaceKV st u v) u' = lookupKV st u' := by
  induction st with
  | nil => rfl
  | cons p rest ih =>
    cases p with
    | mk k w =>
      by_cases hk : k = u
      · rw [replaceKV, if_pos hk, lookupKV, lookupKV,
          if_neg (fun hh : u = u' => h (hh.symm.trans rfl)),
          if_neg (fun hh : k = u' => h (hk ▸ hh ▸ rfl)), ih]
      · rw [replaceKV, if_neg hk, lookupKV, lookupKV, ih]

theorem lookupKV_append_none {A : Type} {st : List (String × A)} {u : String}
    {l2 : List (String × A)} (h : lookupKV st u = none) :
    lookupKV (st ++ l2) u = lookupKV l2 u := by
  induction st with
  | nil => rfl
  | cons p rest ih =>
    cases p with
    | mk k w =>
      rw [lookupKV] at h
      by_cases hk : k = u
      · rw [if_pos hk] at h
        simp at h
      · rw [if_neg hk] at h
        rw [List.cons_append, lookupKV, if_neg hk]
        exact ih h

theorem lookupKV_append_some {A : Type} {st : List (String × A)} {u : String}
    {l2 : List (String × A)} {v : A} (h : lookupKV st u = some v) :
    lookupKV (st ++ l2) u = some v := by
  induction st with
  | nil => simp [lookupKV] at h
  | cons p rest ih =>
    cases p with
    | mk k w =>
      rw [lookupKV] at h
      rw [List.cons_append, lookupKV]
      by_cases hk : k = u
      · rw [if_pos hk] at h ⊢
        exact h
      · rw [if_neg hk] at h ⊢
        exact ih h

theorem lookupKV_setKV_self {A : Type} {st : List (String × A)} {u : String} {v : A} :
    lookupKV (setKV st u v) u = some v := by
  unfold setKV
  by_cases h : (lookupKV st u).isSome
  · rw [if_pos h]
    exact lookupKV_replaceKV_self h
  · rw [if_neg h]
    have hn : lookupKV st u = none := by
      cases hx : lookupKV st u
      · rfl
      · rw [hx] at h
        simp at h
    rw [lookupKV_append_none hn, lookupKV, if_pos rfl]

theorem lookupKV_setKV_ne {A : Type} {st : List (String × A)} {u u' : String} {v : A}
    (h : u' ≠ u) : lookupKV (setKV st u v) u' = lookupKV st u' := by
  unfold setKV
  by_cases hs : (lookupKV st u).isSome
  · rw [if_pos hs]
    exact lookupKV_replaceKV_ne h
  · rw [if_neg hs]
    cases hx : lookupKV st u' with
    | some w => exact lookupKV_append_some hx
    | none =>
      rw [lookupKV_append_none hx, lookupKV,
        if_neg (fun hh : u = u' => h hh.symm), lookupKV]

theorem mem_replaceKV {A : Type} {st : List (String × A)} {u : String} {v : A}
    {e : String × A} (h : e ∈ replaceKV st u v) : e = (u, v) ∨ e ∈ st := by
  induction st with
  | nil => simp [replaceKV] at h
  | cons p rest ih =>
    cases p with
    | mk k w =>
      by_cases hk : k = u
      · rw [replaceKV, if_pos hk] at h
        rcases List.mem_cons.mp h with h1 | h1
        · exact Or.inl h1
        · rcases ih h1 with h2 | h2
          · exact Or.inl h2
          · exact Or.inr (List.mem_cons_of_mem _ h2)
      · rw [replaceKV, if_neg hk] at h
        rcases List.mem_cons.mp h with h1 | h1
        · exact Or.inr (h1 ▸ List.mem_cons_self _ _)
        · rcases ih h1 with h2 | h2
          · exact Or.inl h2
          · exact Or.inr (List.mem_cons_of_mem _ h2)

theorem mem_setKV {A : Type} {st : List (String × A)} {u : String} {v : A}
    {e : String × A} (h : e ∈ setKV st u v) : e = (u, v) ∨ e ∈ st := by
  unfold setKV at h
  by_cases hs : (lookupKV st u).isSome
  · rw [if_pos hs] at h
    exact mem_replaceKV h
  · rw [if_neg hs] at h
    rcases List.mem_append.mp h with h1 | h1
    · exact Or.inr h1
    · exact Or.inl (by simpa using h1)

/-! ## Supporting lemmas: the rate limiter -/

theorem lookupKV_filter {A : Type} {st : List (String × A)} {u : String}
    {f : String × A → Bool} (hn : KeysNodup st) :
    lookupKV (st.filter f) u
      = match lookupKV st u with
        | some v => if f (u, v) then some v else none
        | none => none := by
  induction st with
  | nil => rfl
  | cons p rest ih =>
    cases p with
    | mk k w =>
      rw [KeysNodup, List.map_cons] at hn
      have hcons := List.nodup_cons.mp hn
      have hn' : KeysNodup rest := hcons.2
      by_cases hk : k = u
      · subst hk
        by_cases hf : f (k, w)
        · simp [lookupKV, List.filter_cons, hf]
        · have hnone : lookupKV (List.filter f rest) k = none :=
            lookupKV_eq_none_of_not_mem
              (fun hmem => hcons.1
                (List.map_subset Prod.fst (List.filter_sublist _).subset hmem))
          simp [lookupKV, List.filter_cons, hf, hnone]
      · by_cases hf : f (k, w)
        · simp [lookupKV, List.filter_cons, hf, hk, ih hn']
        · simp [lookupKV, List.filter_cons, hf, hk, ih hn']

theorem liveLookup_setKV_self {st : RLState} {u : String} {e : RLEntry} {t : Nat} :
    liveLookup (setKV st u e) t u = if t > e.resetTime then none else some e := by
  unfold liveLookup
  rw [lookupKV_setKV_self]

theorem liveLookup_setKV_ne {st : RLState} {u u' : String} {e : RLEntry} {t : Nat}
    (h : u' ≠ u) : liveLookup (setKV st u e) t u' = liveLookup st t u' := by
  unfold liveLookup
  rw [lookupKV_setKV_ne h]

/-- checkRateLimit is fully determined by the live-counter view: a missing
or expired entry leads to the fresh-counter branch, a live one to the
limit test. -/
theorem checkRateLimit_eq (st : RLState) (now : Nat) (u : String)
    (limit windowMs : Nat) :
    checkRateLimit st now u limit windowMs
      = match liveLookup st now u with
        | none => (true, setKV st u { count := 1, resetTime := now + windowMs })
        | some e =>
          if e.count ≥ limit then (false, st)
          else (true, setKV st u { count := e.count + 1, resetTime := e.resetTime }) := by
  unfold checkRateLimit liveLookup
  cases lookupKV st u with
  | none => rfl
  | some e =>
    by_cases h : now > e.resetTime
    · simp only [if_pos h]
    · simp only [if_neg h]

theorem liveLookup_cleanup {st : RLState} {tc t : Nat} (hn : KeysNodup st)
    (htc : tc ≤ t) (u : String) :
    liveLookup (cleanupRateLimits st tc) t u = liveLookup st t u := by
  unfold liveLookup cleanupRateLimits
  rw [lookupKV_filter hn]
  cases lookupKV st u with
  | none => rfl
  | some e =>
    by_cases hk : tc ≤ e.resetTime
    · simp [hk]
    · have ht : t > e.resetTime := by omega
      simp [hk, ht]

/-- Observationally equivalent states produce the same admission result
and stay observationally equivalent after any tryAdmit call at a time
past the bound. -/
theorem checkRateLimit_equivFrom {tc : Nat} {s1 s2 : RLState}
    (h : EquivFrom tc s1 s2) {t : Nat} (ht : tc ≤ t) (u : String)
    (limit windowMs : Nat) :
    (checkRateLimit s1 t u limit windowMs).1 = (checkRateLimit s2 t u limit windowMs).1
    ∧ EquivFrom tc (checkRateLimit s1 t u limit windowMs).2
        (checkRateLimit s2 t u limit windowMs).2 := by
  have hl := h t u ht
  rw [checkRateLimit_eq s1, checkRateLimit_eq s2, hl]
  cases hv : liveLookup s2 t u with
  | none =>
    refine ⟨rfl, ?_⟩
    intro t' u' ht'
    by_cases hu : u' = u
    · subst hu
      rw [liveLookup_setKV_self, liveLookup_setKV_self]
    · rw [liveLookup_setKV_ne hu, liveLookup_setKV_ne hu]
      exact h t' u' ht'
  | some e =>
    by_cases hc : e.count ≥ limit
    · exact ⟨by simp [hc], by simpa [hc] using h⟩
    · refine ⟨by simp [hc], ?_⟩
      simp only [if_neg hc]
      intro t' u' ht'
      by_cases hu : u' = u
      · subst hu
        rw [liveLookup_setKV_self, liveLookup_setKV_self]
      · rw [liveLookup_setKV_ne hu, liveLookup_setKV_ne hu]
        exact h t' u' ht'

/-! ## Claim C5 -/

/-- C5: for every identity, positive limit and window duration, a
checkRateLimit call finding no live counter creates one with count 1 and
reset time now + windowMs and admits; finding a live counter below the
limit it increments it in place and admits; finding one at or above the
limit it rejects without touching the state.  With limit 3 and one
window, three calls are admitted, the fourth is rejected, and a call
after the window has elapsed is admitted again. -/
theorem rateLimit_branches_and_boundary (st : RLState) (now : Nat) (u : String)
    (limit windowMs : Nat) (hpos : 0 < limit) :
    (liveLookup st now u = none →
      checkRateLimit st now u limit windowMs
        = (true, setKV st u { count := 1, resetTime := now + windowMs }))
    ∧ (∀ e, liveLookup st now u = some e → e.count < limit →
      checkRateLimit st now u limit windowMs
        = (true, setKV st u { count := e.count + 1, resetTime := e.resetTime }))
    ∧ (∀ e, liveLookup st now u = some e → e.count ≥ limit →
      checkRateLimit st now u limit windowMs = (false, st))
    ∧ (checkRateLimit [] 0 "u" 3 1000
        = (true, [("u", { count := 1, resetTime := 1000 })])
      ∧ checkRateLimit [("u", { count := 1, resetTime := 1000 })] 0 "u" 3 1000
        = (true, [("u", { count := 2, resetTime := 1000 })])
      ∧ checkRateLimit [("u", { count := 2, resetTime := 1000 })] 0 "u" 3 1000
        = (true, [("u", { count := 3, resetTime := 1000 })])
      ∧ checkRateLimit [("u", { count := 3, resetTime := 1000 })] 0 "u" 3 1000
        = (false, [("u", { count := 3, resetTime := 1000 })])
      ∧ (checkRateLimit [("u", { count := 3, resetTime := 1000 })] 1001 "u" 3 1000).1
        = true) := by
  refine ⟨?_, ?_, ?_, by decide⟩
  · intro hnone
    rw [checkRateLimit_eq, hnone]
  · intro e he hlt
    rw [checkRateLimit_eq, he]
    simp only [if_neg (by omega : ¬ e.count ≥ limit)]
  · intro e he hge
    rw [checkRateLimit_eq, he]
    simp only [if_pos hge]

/-- Closed instance of the C5 theorem at a concrete state and time. -/
theorem rateLimit_branches_and_boundary_witness :
    checkRateLimit [] 7 "alice" 3 1000
      = (true, setKV [] "alice" { count := 1, resetTime := 7 + 1000 }) :=
  (rateLimit_branches_and_boundary [] 7 "alice" 3 1000 (by decide)).1 rfl

/-! ## Claim C7 -/

/-- C7: running cleanupRateLimits and then checkRateLimit at any time not
earlier than the cleanup time yields the same admission result as
without the cleanup, and the two resulting states stay observationally
equivalent (same live counters at all later times); observationally
equivalent states in turn give identical results under further
checkRateLimit calls.  cleanup removes exactly the counters whose reset
time has passed, which checkRateLimit already treats as absent. -/
theorem cleanup_no_observable_effect (st : RLState) (tc t : Nat) (u : String)
    (limit windowMs : Nat) (hn : KeysNodup st) (htc : tc ≤ t) :
    ((checkRateLimit (cleanupRateLimits st tc) t u limit windowMs).1
      = (checkRateLimit st t u limit windowMs).1)
    ∧ EquivFrom tc (checkRateLimit (cleanupRateLimits st tc) t u limit windowMs).2
        (checkRateLimit st t u limit windowMs).2
    ∧ (∀ s1 s2, EquivFrom tc s1 s2 → ∀ t2 u2 l2 w2, tc ≤ t2 →
        (checkRateLimit s1 t2 u2 l2 w2).1 = (checkRateLimit s2 t2 u2 l2 w2).1
        ∧ EquivFrom tc (checkRateLimit s1 t2 u2 l2 w2).2 (checkRateLimit s2 t2 u2 l2 w2).2) := by
  have hequiv : EquivFrom tc (cleanupRateLimits st tc) st :=
    fun t' u' ht' => liveLookup_cleanup hn ht' u'
  have hmain := checkRateLimit_equivFrom hequiv htc u limit windowMs
  exact ⟨hmain.1, hmain.2,
    fun s1 s2 he t2 u2 l2 w2 ht2 => checkRateLimit_equivFrom he ht2 u2 l2 w2⟩

/-- Closed instance of the C7 theorem: a state with one expired and one
live counter, cleaned at time 10 and queried at time 10. -/
theorem cleanup_no_observable_effect_witness :
    (checkRateLimit
        (cleanupRateLimits [("a", { count := 1, resetTime := 5 }),
          ("b", { count := 2, resetTime := 100 })] 10)
        10 "a" 3 50).1
      = (checkRateLimit [("a", { count := 1, resetTime := 5 }),
          ("b", { count := 2, resetTime := 100 })] 10 "a" 3 50).1 :=
  (cleanup_no_observable_effect
    [("a", { count := 1, resetTime := 5 }), ("b", { count := 2, resetTime := 100 })]
    10 10 "a" 3 50 (by unfold KeysNodup; decide) (by decide)).1

/-! ## Concrete instances shared by the closed theorems -/

/-- A concrete 32-character configured encryption secret. -/
def demoSecret : String := "0123456789abcdef0123456789abcdef"

/-- A second, different configured secret, standing for a rotated key. -/
def demoSecretB : String := "otherSecretKeyOtherSecretKey1234"

/-- A concrete 16-byte iv as crypto.randomBytes(16) would produce. -/
def demoIv : List Nat := List.range 16

/-- A concrete well-formed evm provider. -/
def demoProvider : WalletProvider :=
  { type := ChainType.evm,
    privateKey := "0xaaaaaaaaaaaaaaaaaaaaaaaaaaaaaaaaaaaaaaaaaaaaaaaaaaaaaaaaaaaaaaaa",
    rpcUrl := "https://rpc.example" }

/-- The registry state after one successful registration of demoProvider
for user u under demoSecret. -/
def demoState : WMState :=
  (registerWallet (fun s => Except.ok (encrypt demoSecret demoIv s))
    true 5 [] "u" demoProvider).2

/-! ## Claim C3 -/

/-- C3 counterexample: encrypting the empty string yields a blob whose
third (ciphertext) component is empty, which the falsy-component guard
of decrypt rejects, so decrypt(encrypt p) fails rather than returning p
at p = "". -/
theorem roundtrip_fails_on_empty_plaintext :
    decrypt demoSecret (encrypt demoSecret demoIv "") = .error ()
    ∧ decryptCore demoSecret (encrypt demoSecret demoIv "") = .error CryptoErr.malformed :=
  ⟨rfl, rfl⟩

/-- C3 (amended): for every non-empty plaintext p and every 16-byte iv,
decrypting encrypt(p) under the same configured secret returns exactly
p; for the empty plaintext the produced blob has an empty ciphertext
component and decrypt rejects it as malformed. -/
theorem decrypt_encrypt_roundtrip (secret : String) (iv : List Nat) (p : String)
    (hiv : iv.length = 16) (hb : ∀ b ∈ iv, b < 256) (hp : p ≠ "") :
    decrypt secret (encrypt secret iv p) = .ok p := by
  have hne : iv ≠ [] := by
    intro h
    rw [h] at hiv
    simp at hiv
  rw [decrypt, decryptCore_encrypt secret iv p hne hb hp]
  rfl

/-- Closed instance of the C3 theorem on a concrete secret, iv and
plaintext. -/
theorem decrypt_encrypt_roundtrip_witness :
    decrypt demoSecret (encrypt demoSecret demoIv "hello") = .ok "hello" :=
  decrypt_encrypt_roundtrip demoSecret demoIv "hello" (by decide) (by decide) (by decide)

/-! ## Claim C6 -/

/-- C6 counterexample: appending a fourth, non-hex colon component to a
valid blob still decrypts successfully: the JavaScript destructuring
silently ignores everything past the third component, so an input whose
split does not yield exactly three components is neither rejected as
malformed nor prevented from returning decrypted data. -/
theorem decrypt_accepts_extra_components :
    (splitOnChar ':' (encrypt demoSecret demoIv "hi" ++ ":zz").data).length = 4
    ∧ decrypt demoSecret (encrypt demoSecret demoIv "hi" ++ ":zz") = .ok "hi" :=
  ⟨rfl, rfl⟩

/-- C6 (amended): an input whose colon split yields fewer than three
components, or an empty component among the first three, makes decrypt
fail at the format guard; internally this is the malformed-blob throw,
but the catch block collapses it into the same single generic error as
an authentication failure, so the caller sees no distinct MalformedBlob
error.  Extra components beyond the third are ignored and non-hex
content is greedily truncated rather than rejected, so such inputs can
still return decrypted data. -/
theorem decrypt_malformed_inputs_fail (secret blob : String)
    (h : (splitOnChar ':' blob.data).length < 3
      ∨ ∃ i, i < 3 ∧ (splitOnChar ':' blob.data).getD i [] = []) :
    decryptCore secret blob = .error CryptoErr.malformed
    ∧ decrypt secret blob = .error () := by
  have hguard : (splitOnChar ':' blob.data).getD 0 [] = []
      ∨ (splitOnChar ':' blob.data).getD 1 [] = []
      ∨ (splitOnChar ':' blob.data).getD 2 [] = [] := by
    rcases h with h | ⟨i, hi, hgd⟩
    · right; right
      exact List.getD_eq_default _ _ (by omega)
    · interval_cases i
      · exact Or.inl hgd
      · exact Or.inr (Or.inl hgd)
      · exact Or.inr (Or.inr hgd)
  have hcore : decryptCore secret blob = .error CryptoErr.malformed := by
    unfold decryptCore
    rw [if_pos hguard]
  exact ⟨hcore, by rw [decrypt, hcore]; rfl⟩

/-- Closed instance of the C6 theorem: a two-component input fails with
the malformed error. -/
theorem decrypt_malformed_inputs_fail_witness :
    decryptCore demoSecret "ab:cd" = .error CryptoErr.malformed
    ∧ decrypt demoSecret "ab:cd" = .error () :=
  decrypt_malformed_inputs_fail demoSecret "ab:cd" (Or.inl (by decide))

/-! ## Claim C1 -/

/-- C1 counterexample: register under demoSecret, then read back under
the rotated secret demoSecretB.  The stored active record's privateKey
blob fails to decrypt, yet getWallet returns null (the success value for
an absent wallet) with no state change — the decryption failure never
reaches the caller as a typed error. -/
theorem getWallet_swallows_decrypt_failure :
    ((lookupKV demoState "u").map
        (fun uw => decrypt demoSecretB uw.walletProvider.privateKey))
      = some (.error ())
    ∧ ((lookupKV demoState "u").map (fun uw => uw.isActive)) = some true
    ∧ getWallet (decrypt demoSecretB) 9 demoState "u" = (none, demoState) :=
  ⟨rfl, rfl, rfl⟩

/-- C1 (amended): when the stored active record's privateKey blob fails
to decrypt — or its truthy crossmintApiKey blob does — getWallet catches
the failure and returns null with the registry unchanged: the caller
sees the same answer as for an absent wallet, no typed error, and no
empty or garbage secret material. -/
theorem getWallet_returns_none_on_decrypt_failure
    (dec : String → Except Unit String) (now : Nat) (st : WMState)
    (userId : String) (uw : UserWallet)
    (hlk : lookupKV st userId = some uw) (hact : uw.isActive = true) :
    (dec uw.walletProvider.privateKey = .error () →
      getWallet dec now st userId = (none, st))
    ∧ (∀ ck, uw.walletProvider.crossmintApiKey = some ck → ck ≠ "" →
        dec ck = .error () →
        getWallet dec now st userId = (none, st)) := by
  constructor
  · intro hpk
    unfold getWallet
    rw [hlk]
    dsimp only
    simp [hact, hpk]
  · intro ck hck hne hdec
    unfold getWallet
    rw [hlk]
    dsimp only
    have htr : optTruthy uw.walletProvider.crossmintApiKey = true := by
      rw [hck]
      simpa [optTruthy] using hne
    cases hpk : dec uw.walletProvider.privateKey with
    | error e => simp [hact, hpk]
    | ok dpk => simp [hact, hpk, htr, hck, hdec, Except.map, optTruthy, hne]

/-- Closed instance of the C1 theorem at the rotated-key state. -/
theorem getWallet_returns_none_on_decrypt_failure_witness :
    getWallet (decrypt demoSecretB) 9 demoState "u" = (none, demoState) :=
  (getWallet_returns_none_on_decrypt_failure (decrypt demoSecretB) 9 demoState "u"
    _ rfl rfl).1 rfl

/-! ## Claim C4 -/

/-- C4 counterexample: removal retains the record, so an immediately
repeated removeWallet still finds it and returns true — not false as the
claim states; hasWallet is false after the first removal. -/
theorem removeWallet_repeated_returns_true :
    (removeWallet demoState "u").1 = true
    ∧ (removeWallet (removeWallet demoState "u").2 "u").1 = true
    ∧ hasWallet (removeWallet demoState "u").2 "u" = false :=
  ⟨rfl, rfl, rfl⟩

/-- C4 (amended): removeWallet returns whether any record exists,
active or not: the first removal of a stored record returns true and
deactivates it in place, hasWallet is false afterwards, removal for a
user with no record returns false, and an immediately repeated removal
returns true again because the deactivated record is retained. -/
theorem removeWallet_semantics (st : WMState) (u : String) :
    (∀ uw, lookupKV st u = some uw →
      removeWallet st u = (true, setKV st u { uw with isActive := false })
      ∧ hasWallet (setKV st u { uw with isActive := false }) u = false
      ∧ (removeWallet (setKV st u { uw with isActive := false }) u).1 = true)
    ∧ (lookupKV st u = none → removeWallet st u = (false, st)) := by
  constructor
  · intro uw h
    refine ⟨by unfold removeWallet; rw [h], ?_, ?_⟩
    · unfold hasWallet
      rw [lookupKV_setKV_self]
    · unfold removeWallet
      rw [lookupKV_setKV_self]
  · intro h
    unfold removeWallet
    rw [h]

/-- Closed instance of the C4 theorem at the demo registry state. -/
theorem removeWallet_semantics_witness :
    (removeWallet demoState "u").1 = true
    ∧ removeWallet [] "nobody" = (false, []) :=
  ⟨by rw [((removeWallet_semantics demoState "u").1 _ rfl).1],
   (removeWallet_semantics [] "nobody").2 rfl⟩

/-! ## Claim C8 -/

/-- C8: when the required phase of registration (address derivation and
encryption of the secret fields) succeeds, registerWallet reports
success and the record is stored, for both outcomes of the dependent
GoatService tool-initialization side effect: its failure is only caught
and logged and neither fails nor rolls back the registration. -/
theorem registerWallet_partial_success
    (enc : String → Except Unit String) (now : Nat) (st : WMState)
    (userId : String) (wp complete : WalletProvider)
    (h : regRequired enc wp = .ok complete) :
    ∀ goatOk : Bool,
      registerWallet enc goatOk now st userId wp
        = (true, setKV st userId
            { userId := userId, walletProvider := complete, isActive := true,
              createdAt := now, lastUsed := now })
      ∧ lookupKV (registerWallet enc goatOk now st userId wp).2 userId
        = some ({ userId := userId, walletProvider := complete, isActive := true,
                  createdAt := now, lastUsed := now } : UserWallet) := by
  intro goatOk
  have h1 : registerWallet enc goatOk now st userId wp
      = (true, setKV st userId
          { userId := userId, walletProvider := complete, isActive := true,
            createdAt := now, lastUsed := now }) := by
    unfold registerWallet
    rw [h]
  refine ⟨h1, ?_⟩
  rw [h1]
  exact lookupKV_setKV_self

/-- Closed instance of the C8 theorem: registration succeeds with the
tool-initialization side effect failing. -/
theorem registerWallet_partial_success_witness :
    (registerWallet (fun s => Except.ok (encrypt demoSecret demoIv s))
        false 5 [] "u" demoProvider).1 = true := by
  rw [((registerWallet_partial_success
    (fun s => Except.ok (encrypt demoSecret demoIv s)) 5 [] "u" demoProvider
    _ rfl) false).1]

/-! ## Claim C10 -/

/-- A concrete provider whose address derivation throws: the private key
is not a well-formed 0x-prefixed 32-byte hex key. -/
def badKeyProvider : WalletProvider :=
  { type := ChainType.evm, privateKey := "zz", rpcUrl := "https://rpc.example" }

/-- C10: if the required phase of registration fails — the address
derivation throws, or the encryption of the private key or of the truthy
crossmint key fails — registerWallet reports failure and the registry
state is exactly as before the call: no record is created, replaced or
modified. -/
theorem registerWallet_failure_no_state_change
    (enc : String → Except Unit String) (goatOk : Bool) (now : Nat)
    (st : WMState) (userId : String) (wp : WalletProvider)
    (h : deriveStep wp = .error () ∨ enc wp.privateKey = .error ()
      ∨ encCkStep enc wp = .error ()) :
    registerWallet enc goatOk now st userId wp = (false, st) := by
  have hreq : regRequired enc wp = .error () := by
    unfold regRequired
    rcases h with h | h | h
    · rw [h]
    · cases hd : deriveStep wp with
      | error e => rfl
      | ok addr => rw [h]
    · cases hd : deriveStep wp with
      | error e => rfl
      | ok addr =>
        cases hpk : enc wp.privateKey with
        | error e => rfl
        | ok encPk => rw [h]
  unfold registerWallet
  rw [hreq]

/-- Closed instance of the C10 theorem: a malformed private key makes the
derivation throw and leaves the empty registry unchanged. -/
theorem registerWallet_failure_no_state_change_witness :
    registerWallet (fun s => Except.ok (encrypt demoSecret demoIv s))
        true 5 [] "u" badKeyProvider = (false, []) :=
  registerWallet_failure_no_state_change _ true 5 [] "u" badKeyProvider
    (Or.inl rfl)

/-! ## Claim C9 -/

/-- The claim's reading of the evm key check: strip an optional leading
0x prefix only, then require exactly 64 hex characters (together with the
presence checks the validator performs first). -/
def specValidateEvmProvider (p : WalletProvider) : Bool :=
  if p.privateKey = "" || p.rpcUrl = "" then false
  else
    let l := match p.privateKey.data with
      | '0' :: 'x' :: rest => rest
      | l => l
    decide (l.length = 64) && l.all isHexChar

/-- An evm provider whose 66-character key contains 0x in the middle
rather than as a prefix. -/
def oddKeyProvider : WalletProvider :=
  { type := ChainType.evm,
    privateKey := "a0xaaaaaaaaaaaaaaaaaaaaaaaaaaaaaaaaaaaaaaaaaaaaaaaaaaaaaaaaaaaaaaa",
    rpcUrl := "https://rpc.example" }

/-- C9 counterexample: the code removes the first occurrence of the
substring 0x anywhere in the key, not only a leading prefix, so a
66-character key with 0x in the middle passes validateWalletProvider
although it is not 64 hex characters after stripping a leading prefix. -/
theorem validate_evm_not_prefix_stripping :
    validateWalletProvider oddKeyProvider = true
    ∧ specValidateEvmProvider oddKeyProvider = false :=
  ⟨rfl, rfl⟩

/-- C9 (amended): for evm providers, validateWalletProvider returns true
iff privateKey and rpcUrl are non-empty and the key is exactly 64 hex
characters after removing the first occurrence of the substring 0x
anywhere in it; when the key starts with 0x, the removed occurrence is
exactly that leading prefix. -/
theorem validateWalletProvider_evm (p : WalletProvider)
    (htype : p.type = ChainType.evm) :
    (validateWalletProvider p = true
      ↔ (p.privateKey ≠ "" ∧ p.rpcUrl ≠ ""
        ∧ (removeFirst0x p.privateKey.data).length = 64
        ∧ (removeFirst0x p.privateKey.data).all isHexChar = true))
    ∧ (∀ l, removeFirst0x ('0' :: 'x' :: l) = l) := by
  refine ⟨?_, fun l => rfl⟩
  unfold validateWalletProvider validateEvmWallet
  rw [htype]
  by_cases h1 : p.privateKey = ""
  · simp [h1]
  · by_cases h2 : p.rpcUrl = ""
    · simp [h1, h2]
    · simp [h1, h2]

/-- Closed instance of the C9 theorem at a well-formed 0x-prefixed key. -/
theorem validateWalletProvider_evm_witness :
    validateWalletProvider demoProvider = true :=
  ((validateWalletProvider_evm demoProvider rfl).1).mpr
    ⟨by decide, by decide, by decide, by decide⟩

/-! ## Claim C2 -/

/-- An encryption oracle as injected into the WalletManager: every
success value is an encrypt-produced blob of its argument (the fresh
random iv of each call is abstracted into the oracle). -/
def EncOk (cfg : String) (enc : String → Except Unit String) : Prop :=
  ∀ s r, enc s = .ok r → ∃ iv, r = encrypt cfg iv s

/-- The registry states reachable from the empty wallets Map through any
sequence of WalletManager operations, with any encryption oracle for the
configured secret, any decryption oracle, any timestamps, any
tool-initialization outcomes and any arguments. -/
inductive Reach (cfg : String) : WMState → Prop
  | init : Reach cfg []
  | register (st : WMState) (enc : String → Except Unit String) (goatOk : Bool)
      (now : Nat) (u : String) (wp : WalletProvider) :
      Reach cfg st → EncOk cfg enc →
      Reach cfg (registerWallet enc goatOk now st u wp).2
  | getw (st : WMState) (dec : String → Except Unit String) (now : Nat)
      (u : String) :
      Reach cfg st → Reach cfg (getWallet dec now st u).2
  | removew (st : WMState) (u : String) :
      Reach cfg st → Reach cfg (removeWallet st u).2
  | updatew (st : WMState) (enc : String → Except Unit String) (u : String)
      (upd : WalletUpdate) :
      Reach cfg st → EncOk cfg enc →
      Reach cfg (updateWallet enc st u upd).2

/-- A stored secret field is either an encrypt-produced blob or the
verbatim empty string that an update call supplied. -/
def SecretStoredOk (cfg : String) (s : String) : Prop :=
  (∃ iv p, s = encrypt cfg iv p) ∨ s = ""

/-- Every record of a state stores its secret fields as SecretStoredOk. -/
def StateOk (cfg : String) (st : WMState) : Prop :=
  ∀ e ∈ st, SecretStoredOk cfg e.2.walletProvider.privateKey
    ∧ ∀ ck, e.2.walletProvider.crossmintApiKey = some ck → SecretStoredOk cfg ck

/-- An encrypt-produced blob is never the empty string: it always
contains the two colon separators. -/
theorem encrypt_ne_empty (cfg : String) (iv : List Nat) (p : String) :
    encrypt cfg iv p ≠ "" := by
  intro h
  have hd : (encrypt cfg iv p).data = [] := by rw [h]
  have : (encrypt cfg iv p).data
      = (hexChars iv ++ ':' :: hexChars (ghash (scryptKey cfg) iv theAad
          (xorStream (scryptKey cfg) iv (encodeBytes p.data))))
        ++ ':' :: hexChars (xorStream (scryptKey cfg) iv (encodeBytes p.data)) := rfl
  rw [this] at hd
  simp at hd

theorem lookupKV_mem {A : Type} {st : List (String × A)} {u : String} {v : A}
    (h : lookupKV st u = some v) : (u, v) ∈ st := by
  induction st with
  | nil => simp [lookupKV] at h
  | cons p rest ih =>
    cases p with
    | mk k w =>
      rw [lookupKV] at h
      by_cases hk : k = u
      · rw [if_pos hk] at h
        subst hk
        cases h
        exact List.mem_cons_self _ _
      · rw [if_neg hk] at h
        exact List.mem_cons_of_mem _ (ih h)

theorem stateOk_setKV {cfg : String} {st : WMState} {u : String} {uw : UserWallet}
    (hst : StateOk cfg st)
    (hok : SecretStoredOk cfg uw.walletProvider.privateKey
      ∧ ∀ ck, uw.walletProvider.crossmintApiKey = some ck → SecretStoredOk cfg ck) :
    StateOk cfg (setKV st u uw) := by
  intro e he
  rcases mem_setKV he with rfl | he'
  · exact hok
  · exact hst e he'

theorem encCkStep_ok {cfg : String} {enc : String → Except Unit String}
    {wp : WalletProvider} {encCk : Option String} (henc : EncOk cfg enc)
    (h : encCkStep enc wp = .ok encCk) :
    ∀ ck, encCk = some ck → ∃ iv p, ck = encrypt cfg iv p := by
  intro ck hck
  cases wck : wp.crossmintApiKey with
  | none =>
    simp only [encCkStep, wck] at h
    cases h
    cases hck
  | some s =>
    simp only [encCkStep, wck] at h
    by_cases hs : s ≠ ""
    · rw [if_pos hs] at h
      cases hes : enc s with
      | error e =>
        rw [hes] at h
        simp [Except.map] at h
      | ok r =>
        rw [hes] at h
        simp only [Except.map] at h
        rcases henc s r hes with ⟨iv, hiv⟩
        cases h
        cases hck
        exact ⟨iv, s, hiv⟩
    · rw [if_neg hs] at h
      cases h
      cases hck

theorem encUpdStep_ok {cfg : String} {enc : String → Except Unit String}
    {o : Option String} {r : Option String} (henc : EncOk cfg enc)
    (h : encUpdStep enc o = .ok r) :
    ∀ s, r = some s → SecretStoredOk cfg s := by
  intro s hs
  cases o with
  | none =>
    simp only [encUpdStep] at h
    cases h
    cases hs
  | some s0 =>
    simp only [encUpdStep] at h
    by_cases h0 : s0 ≠ ""
    · rw [if_pos h0] at h
      cases hes : enc s0 with
      | error e =>
        rw [hes] at h
        simp [Except.map] at h
      | ok rr =>
        rw [hes] at h
        simp only [Except.map] at h
        rcases henc s0 rr hes with ⟨iv, hiv⟩
        cases h
        cases hs
        exact Or.inl ⟨iv, s0, hiv⟩
    · rw [if_neg h0] at h
      cases h
      cases hs
      exact Or.inr (by simpa using h0)

theorem stateOk_register {cfg : String} {st : WMState}
    {enc : String → Except Unit String} {goatOk : Bool} {now : Nat}
    {u : String} {wp : WalletProvider} (hst : StateOk cfg st)
    (henc : EncOk cfg enc) :
    StateOk cfg (registerWallet enc goatOk now st u wp).2 := by
  unfold registerWallet regRequired
  cases hd : deriveStep wp with
  | error e => exact hst
  | ok addr =>
    cases hpk : enc wp.privateKey with
    | error e => exact hst
    | ok encPk =>
      cases hck : encCkStep enc wp with
      | error e => exact hst
      | ok encCk =>
        refine stateOk_setKV hst ⟨?_, ?_⟩
        · rcases henc wp.privateKey encPk hpk with ⟨iv, hiv⟩
          exact Or.inl ⟨iv, wp.privateKey, hiv⟩
        · intro ck hckk
          rcases encCkStep_ok henc hck ck hckk with ⟨iv, p, hiv⟩
          exact Or.inl ⟨iv, p, hiv⟩

theorem stateOk_getWallet {cfg : String} {st : WMState}
    {dec : String → Except Unit String} {now : Nat} {u : String}
    (hst : StateOk cfg st) : StateOk cfg (getWallet dec now st u).2 := by
  unfold getWallet
  cases hlk : lookupKV st u with
  | none => exact hst
  | some uw =>
    dsimp only
    cases hb : uw.isActive with
    | false =>
      rw [if_pos (show (!false) = true from rfl)]
      exact hst
    | true =>
      rw [if_neg (show ¬ (!true) = true by simp)]
      cases dec uw.walletProvider.privateKey with
      | error e => exact hst
      | ok dpk =>
        cases (if optTruthy uw.walletProvider.crossmintApiKey = true then
            Except.map some (dec (uw.walletProvider.crossmintApiKey.getD ""))
          else Except.ok none) with
        | error e => exact hst
        | ok dck =>
          exact stateOk_setKV hst (hst (u, uw) (lookupKV_mem hlk))

theorem stateOk_removeWallet {cfg : String} {st : WMState} {u : String}
    (hst : StateOk cfg st) : StateOk cfg (removeWallet st u).2 := by
  unfold removeWallet
  cases hlk : lookupKV st u with
  | none => exact hst
  | some uw => exact stateOk_setKV hst (hst (u, uw) (lookupKV_mem hlk))

theorem stateOk_updateWallet {cfg : String} {st : WMState}
    {enc : String → Except Unit String} {u : String} {upd : WalletUpdate}
    (hst : StateOk cfg st) (henc : EncOk cfg enc) :
    StateOk cfg (updateWallet enc st u upd).2 := by
  unfold updateWallet
  cases hlk : lookupKV st u with
  | none => exact hst
  | some uw =>
    dsimp only
    cases hb : uw.isActive with
    | false =>
      rw [if_pos (show (!false) = true from rfl)]
      exact hst
    | true =>
      rw [if_neg (show ¬ (!true) = true by simp)]
      cases hpk : encUpdStep enc upd.privateKey with
      | error e => exact hst
      | ok upk =>
        cases hck : encUpdStep enc upd.crossmintApiKey with
        | error e => exact hst
        | ok uck =>
          have holdrec := hst (u, uw) (lookupKV_mem hlk)
          refine stateOk_setKV hst ⟨?_, ?_⟩
          · cases hupk : upk with
            | none => exact holdrec.1
            | some s =>
              have hss := encUpdStep_ok henc hpk s hupk
              simpa [hupk] using hss
          · intro ck hckk
            cases huck : uck with
            | none =>
              rw [huck] at hckk
              exact holdrec.2 ck hckk
            | some s =>
              rw [huck] at hckk
              simp only at hckk
              exact Option.some.inj hckk ▸ encUpdStep_ok henc hck s huck

/-- C2 (amended): in every reachable registry state, each stored record
holds its privateKey — and its crossmintApiKey when present — either as
an encrypt-produced blob or as the verbatim empty string supplied by an
update call (whose falsy-string guard skips encryption while the spread
merge still stores the value); register itself always stores blobs.
Every provider value returned by getWallet carries those fields
decrypted: its privateKey is the decryption oracle's output for the
stored blob, and its crossmintApiKey is the decrypted stored key when
the stored one is truthy and absent otherwise. -/
theorem registry_encryption_invariant (cfg : String) :
    (∀ st, Reach cfg st → StateOk cfg st)
    ∧ (∀ (dec : String → Except Unit String) (now : Nat) (st : WMState)
        (u : String) (v : WalletProvider) (st2 : WMState),
        getWallet dec now st u = (some v, st2) →
        ∃ uw, lookupKV st u = some uw
          ∧ dec uw.walletProvider.privateKey = .ok v.privateKey
          ∧ (optTruthy uw.walletProvider.crossmintApiKey = true →
              ∃ c c2, uw.walletProvider.crossmintApiKey = some c
                ∧ v.crossmintApiKey = some c2 ∧ dec c = .ok c2)
          ∧ (optTruthy uw.walletProvider.crossmintApiKey = false →
              v.crossmintApiKey = none)) := by
  constructor
  · intro st h
    induction h with
    | init => intro e he; cases he
    | register st enc goatOk now u wp hr henc ih => exact stateOk_register ih henc
    | getw st dec now u hr ih => exact stateOk_getWallet ih
    | removew st u hr ih => exact stateOk_removeWallet ih
    | updatew st enc u upd hr henc ih => exact stateOk_updateWallet ih henc
  · intro dec now st u v st2 h
    unfold getWallet at h
    cases hlk : lookupKV st u with
    | none =>
      rw [hlk] at h
      cases h
    | some uw =>
      rw [hlk] at h
      dsimp only at h
      refine ⟨uw, rfl, ?_⟩
      cases hb : uw.isActive with
      | false =>
        rw [hb] at h
        simp at h
      | true =>
        rw [hb] at h
        rw [if_neg (show ¬ (!true) = true by simp)] at h
        cases hpk : dec uw.walletProvider.privateKey with
        | error e =>
          rw [hpk] at h
          cases h
        | ok dpk =>
          rw [hpk] at h
          cases htr : optTruthy uw.walletProvider.crossmintApiKey with
          | false =>
            rw [htr] at h
            rw [if_neg (show ¬ (false = true) by simp)] at h
            injection h with h1 h2
            injection h1 with h1
            subst h1
            refine ⟨rfl, ?_, fun _ => rfl⟩
            intro hc
            simp at hc
          | true =>
            rw [htr] at h
            rw [if_pos rfl] at h
            cases hcm : uw.walletProvider.crossmintApiKey with
            | none =>
              rw [hcm] at htr
              simp [optTruthy] at htr
            | some c =>
              rw [hcm] at h
              cases hdc : dec ((some c).getD "") with
              | error e =>
                rw [hdc] at h
                simp [Except.map] at h
              | ok c2 =>
                rw [hdc] at h
                simp only [Except.map] at h
                injection h with h1 h2
                injection h1 with h1
                subst h1
                refine ⟨rfl, ?_, ?_⟩
                · intro _
                  exact ⟨c, c2, rfl, rfl, by simpa using hdc⟩
                · intro hc
                  simp at hc

/-- The demo state after an update supplying the empty string as the new
private key: the falsy guard skips encryption while the spread merge
still stores the caller-supplied value. -/
def demoStateEmptied : WMState :=
  (updateWallet (fun s => Except.ok (encrypt demoSecret demoIv s)) demoState "u"
    { privateKey := some "" }).2

/-- C2 counterexample: after register followed by an update whose
privateKey field is the empty string, the update reports success and the
stored record holds exactly the caller-supplied plaintext, the empty
string, which is not an encrypt-produced blob (every encrypt output
contains two colons, as encrypt_ne_empty records). -/
theorem updateWallet_stores_empty_plaintext :
    (updateWallet (fun s => Except.ok (encrypt demoSecret demoIv s)) demoState "u"
        { privateKey := some "" }).1 = true
    ∧ ((lookupKV demoStateEmptied "u").map
        (fun uw => uw.walletProvider.privateKey)) = some "" :=
  ⟨rfl, rfl⟩

/-- Closed instance of the C2 theorem: the invariant holds at the state
reached by one concrete registration. -/
theorem registry_encryption_invariant_witness :
    StateOk demoSecret demoState :=
  (registry_encryption_invariant demoSecret).1 demoState
    (Reach.register [] (fun s => Except.ok (encrypt demoSecret demoIv s)) true 5 "u"
      demoProvider Reach.init
      (fun s r h => ⟨demoIv, (Except.ok.inj h).symm⟩))
